import Mathlib

set_option maxRecDepth 200000
set_option maxHeartbeats 1000000

/-!
# Verification of the freeshot selection engine (`src/main.rs`)

Shallow embedding of the interactive selection engine of the `freeshot`
screenshot tool: the scanline mask rasterizer (`selection_mask`), the frame
compositor (the `RedrawRequested` arm of `App::window_event`), the crop
extractor (`App::selection_image`), and the pointer-event state machine
(`CursorMoved` / `MouseInput` arms).

Modelling conventions:
* `f64` device coordinates are modelled as exact rationals `ℚ`.  All the
  arithmetic the engine performs on coordinates (comparison, `min`/`max`,
  subtraction, division by a nonzero denominator, `ceil`, `floor`) is exact
  on the ranges of interest, and no NaN can arise in the model: the crossing
  test `(p1.y ≤ y && p2.y > y) || (p2.y ≤ y && p1.y > y)` forces
  `p1.y ≠ p2.y`, so the slope's denominator is nonzero.
* Rust's saturating float-to-integer casts (`as usize`, `as u32`) on values
  produced by `ceil`/`floor` are modelled by `Int.toNat` (negative values
  clamp to 0, as in Rust; the upper `usize::MAX`/`u32::MAX` saturation is
  unreachable in the statements proved, except for `as u32` in the crop
  extractor's bounding box, where it is modelled explicitly).
* Fallible steps are modelled with `Option`: `none` models a Rust panic
  (an out-of-bounds index or a debug-mode integer underflow), so a theorem
  concluding `= some _` certifies absence of those panics.
* Vectors indexed by `usize` become `List`s; the mutating writes
  `mask[i] = true` become bounds-checked functional updates.
-/

/-- A pointer sample: `winit::dpi::PhysicalPosition<f64>`, coordinates
modelled as exact rationals. -/
structure Point where
  x : ℚ
  y : ℚ
deriving DecidableEq, Inhabited

/-- An RGBA pixel (`image::Rgba<u8>`); channels are `u8` values.  The only
channel arithmetic performed is `a / 2` (integer division), which we keep on
`Nat`. -/
structure Rgba where
  r : Nat
  g : Nat
  b : Nat
  a : Nat
deriving DecidableEq, Inhabited

/-- The zeroed pixel: `ImageBuffer::new` initialises every pixel to all-zero
(fully transparent). -/
def zeroPx : Rgba := ⟨0, 0, 0, 0⟩

/-- Checked `usize`/`u32` subtraction: Rust's `a - b` on an unsigned type
panics (in debug builds) when `b > a`; `none` models that underflow. -/
def usizeSub (a b : Nat) : Option Nat :=
  if b ≤ a then some (a - b) else none

/-- Rust's saturating cast `q as u32` for an `f64` value: truncation toward
zero, negative values clamp to `0`, values above `u32::MAX` clamp to
`u32::MAX`.  For `q ≥ 0` truncation toward zero is `⌊q⌋`; for `q < 0` the
result is `0`, and `Int.toNat ⌊q⌋ = 0` there as well since `⌊q⌋ < 0`
(Rust truncates `-0.7` to `0` too). -/
def f64AsU32 (q : ℚ) : Nat :=
  min (Int.toNat ⌊q⌋) (2 ^ 32 - 1)

/-- Reading `mask[j]` with an all-`false` default out of range (the range
proofs are carried separately, so `getD` never actually hits its default in
the characterisation theorems). -/
def maskGet (m : List Bool) (j : Nat) : Bool :=
  m.getD j false

/-- The bounds-checked write `mask[i] = true`: Rust's index assignment panics
when `i` is out of bounds, modelled as `none`. -/
def setChecked (m : List Bool) (i : Nat) : Option (List Bool) :=
  if i < m.length then some (m.set i true) else none

/-! ## Scanline mask rasterizer (`selection_mask`, main.rs:158-206) -/

/-- The edge list of the polygon: `for i in 0..len { let j = (i+1) % len;
(polygon[i], polygon[j]) }` — consecutive points plus the implicit closing
edge from the last point back to the first. -/
def edgeList (polygon : List Point) : List (Point × Point) :=
  (List.range polygon.length).map fun i =>
    (polygon.getD i default, polygon.getD ((i + 1) % polygon.length) default)

/-- The even-odd crossing test of main.rs:183:
`(p1.y <= y && p2.y > y) || (p2.y <= y && p1.y > y)`. -/
def crossB (y : ℚ) (p1 p2 : Point) : Bool :=
  (decide (p1.y ≤ y) && decide (y < p2.y)) || (decide (p2.y ≤ y) && decide (y < p1.y))

/-- The x-intersection of an edge with the horizontal line at height `y`
(main.rs:184-185): `slope = (p2.x - p1.x) / (p2.y - p1.y);
intersect_x = p1.x + (y - p1.y) * slope`. -/
def interX (y : ℚ) (p1 p2 : Point) : ℚ :=
  p1.x + (y - p1.y) * ((p2.x - p1.x) / (p2.y - p1.y))

/-- Insert into a `≤`-sorted list of rationals. -/
def insertQ (a : ℚ) : List ℚ → List ℚ
  | [] => [a]
  | b :: bs => if a ≤ b then a :: b :: bs else b :: insertQ a bs

/-- Ascending sort of the crossing list, modelling
`intersections.sort_by(|a, b| a.partial_cmp(b).unwrap_or(Ordering::Equal))`:
on rationals (no NaN arises in the model, see the header) `partial_cmp`
always succeeds, the comparison is a total order, and since equal rationals
are identical values every correct sort produces the same list. -/
def sortQ : List ℚ → List ℚ
  | [] => []
  | a :: as => insertQ a (sortQ as)

/-- The sorted crossing x-coordinates of scanline `y` (main.rs:177-190):
push `interX` for every edge passing the crossing test, then sort. -/
def scanlineXs (polygon : List Point) (y : ℚ) : List ℚ :=
  sortQ ((edgeList polygon).filterMap fun pq =>
    if crossB y pq.1 pq.2 then some (interX y pq.1 pq.2) else none)

/-- `intersections.chunks(2)` restricted by `if let [start, end]`: the spans
1st–2nd, 3rd–4th, …, a trailing unpaired crossing being dropped. -/
def chunks2 : List ℚ → List (ℚ × ℚ)
  | a :: b :: rest => (a, b) :: chunks2 rest
  | _ => []

/-- The inner fill loop `for x in start..=end { if x < width {
mask[y * width + x] = true; } }` (main.rs:197-201), over the explicit list
of x values of the inclusive range. -/
def fillXs (width y : Nat) (xs : List Nat) (mask : List Bool) : Option (List Bool) :=
  match xs with
  | [] => some mask
  | x :: rest =>
    if x < width then
      match setChecked mask (y * width + x) with
      | none => none
      | some m => fillXs width y rest m
    else fillXs width y rest mask

/-- The span loop of one scanline (main.rs:192-203):
`start = start.max(0.0).ceil() as usize`,
`end = end.min((width - 1) as f64).floor() as usize`, then fill
`start..=end`.  `width - 1` is the checked `usize` subtraction, evaluated
once per span as in the source; the `as usize` casts are `Int.toNat`
(saturating at 0, see the header). -/
def fillSpans (width y : Nat) (spans : List (ℚ × ℚ)) (mask : List Bool) :
    Option (List Bool) :=
  match spans with
  | [] => some mask
  | (s, e) :: rest =>
    match usizeSub width 1 with
    | none => none
    | some wm1 =>
      let st := Int.toNat ⌈max s 0⌉
      let en := Int.toNat ⌊min e (wm1 : ℚ)⌋
      match fillXs width y (List.range' st (en + 1 - st)) mask with
      | none => none
      | some m => fillSpans width y rest m

/-- The scanline loop `for y in min_y..=max_y` (main.rs:176-204). -/
def fillScanlines (width : Nat) (polygon : List Point) (ys : List Nat)
    (mask : List Bool) : Option (List Bool) :=
  match ys with
  | [] => some mask
  | y :: rest =>
    match fillSpans width y (chunks2 (scanlineXs polygon y)) mask with
    | none => none
    | some m => fillScanlines width polygon rest m

/-- Minimum of the y-coordinates:
`polygon.iter().map(|p| p.y).fold(f64::INFINITY, f64::min)`.  On the
nonempty polygons for which it is used (`len ≥ 3`) the `INFINITY`-seeded
fold equals the fold seeded with the first element, which is how ℚ (having
no infinity) models it; the `[]` value is never reached past the early
`len < 3` return. -/
def polyMinY : List Point → ℚ
  | [] => 0
  | p :: ps => ps.foldl (fun acc q => min acc q.y) p.y

/-- Maximum of the y-coordinates, seeded `f64::NEG_INFINITY`; same remark as
`polyMinY`. -/
def polyMaxY : List Point → ℚ
  | [] => 0
  | p :: ps => ps.foldl (fun acc q => max acc q.y) p.y

/-- `fn selection_mask(width, height, polygon) -> Vec<bool>` (main.rs:158-206).
`none` models a panic: the debug-mode underflow of `height - 1` /
`width - 1`, or an out-of-bounds `mask[y * width + x] = true`.
The scanline bounds are `min_y.max(0.0).ceil() as usize` and
`max_y.min((height - 1) as f64).floor() as usize` (main.rs:173-174). -/
def selection_mask (width height : Nat) (polygon : List Point) :
    Option (List Bool) :=
  let mask := List.replicate (width * height) false
  if polygon.length < 3 then some mask
  else
    match usizeSub height 1 with
    | none => none
    | some hm1 =>
      let minY := Int.toNat ⌈max (polyMinY polygon) 0⌉
      let maxY := Int.toNat ⌊min (polyMaxY polygon) (hm1 : ℚ)⌋
      fillScanlines width polygon (List.range' minY (maxY + 1 - minY)) mask

/-! ## Frame compositor (`RedrawRequested` arm, main.rs:96-121) -/

/-- The masked compositing loop (main.rs:100-111): for pixel `i` (row-major
`enumerate` order) copy the RGB channels unchanged and set the alpha to
`color[3]` when `inside_mask[i]`, else to `color[3] / 2`.  The mask read
`inside_mask[i]` is the panicking `Vec` index, modelled with `get?`. -/
def compositeMasked (mask : List Bool) : Nat → List Rgba → Option (List Rgba)
  | _, [] => some []
  | i, c :: rest =>
    match mask.get? i with
    | none => none
    | some b =>
      (compositeMasked mask (i + 1) rest).map
        (fun tl => ⟨c.r, c.g, c.b, if b then c.a else c.a / 2⟩ :: tl)

/-- The session state of `struct App` restricted to the selection engine
(the window/surface handles are external collaborators).  `Instant` is
modelled as a monotone timestamp in nanoseconds. -/
structure AppState where
  iw : Nat
  ih : Nat
  image : List Rgba
  cursorPos : Point
  selecting : Bool
  lastSelectionEvent : Nat
  selection : List Point

/-- The `RedrawRequested` arm (main.rs:96-121): with a current polygon of at
least 3 points, rasterize `selection_mask(iw, ih, selection)` and composite;
with fewer than 3 points, copy every source pixel unchanged (all four
channels) and compute no mask. -/
def onRedraw (s : AppState) : Option (List Rgba) :=
  if 3 ≤ s.selection.length then
    match selection_mask s.iw s.ih s.selection with
    | none => none
    | some mask => compositeMasked mask 0 s.image
  else some s.image

/-! ## Crop extractor (`App::selection_image`, main.rs:37-66) -/

/-- Bounding-box minimum x: `min_x` starts at `iw` and is folded with
`min(min_x, pos.x as u32)` over the selection (main.rs:40-49). -/
def bboxMinX (iw : Nat) (sel : List Point) : Nat :=
  sel.foldl (fun acc p => min acc (f64AsU32 p.x)) iw

/-- Bounding-box minimum y, seeded with `ih`. -/
def bboxMinY (ih : Nat) (sel : List Point) : Nat :=
  sel.foldl (fun acc p => min acc (f64AsU32 p.y)) ih

/-- Bounding-box maximum x, seeded with `0`. -/
def bboxMaxX (sel : List Point) : Nat :=
  sel.foldl (fun acc p => max acc (f64AsU32 p.x)) 0

/-- Bounding-box maximum y, seeded with `0`. -/
def bboxMaxY (sel : List Point) : Nat :=
  sel.foldl (fun acc p => max acc (f64AsU32 p.y)) 0

/-- One iteration of the crop copy loop (main.rs:54-64) at pixel `(x, y)`:
read `image.unsafe_get_pixel(x, y)` (an unchecked read, modelled as a
checked one: `none` models the out-of-bounds access), read
`inside_mask[(y * iw) + x]` (panicking index), and when the mask is set
write the pixel to the output at `(x - min_x, y - min_y)`
(`unsafe_put_pixel`, row-major index `(y - minY) * bw + (x - minX)`). -/
def cropStep (iw bw minX minY : Nat) (img : List Rgba) (mask : List Bool)
    (out : List Rgba) (x y : Nat) : Option (List Rgba) :=
  match img.get? (y * iw + x) with
  | none => none
  | some px =>
    match mask.get? (y * iw + x) with
    | none => none
    | some b =>
      if b then
        let j := (y - minY) * bw + (x - minX)
        if j < out.length then some (out.set j px) else none
      else some out

/-- The nested copy loops `for y in min_y..max_y { for x in min_x..max_x }`
(main.rs:54-64), as a fold over the row-major list of visited `(x, y)`
pairs. -/
def cropLoop (iw bw minX minY : Nat) (img : List Rgba) (mask : List Bool) :
    List (Nat × Nat) → List Rgba → Option (List Rgba)
  | [], out => some out
  | (x, y) :: rest, out =>
    match cropStep iw bw minX minY img mask out x y with
    | none => none
    | some out' => cropLoop iw bw minX minY img mask rest out'

/-- The row-major list of `(x, y)` pairs visited by
`for y in min_y..max_y { for x in min_x..max_x { … } }`. -/
def cropPts (minX maxX minY maxY : Nat) : List (Nat × Nat) :=
  (List.range' minY (maxY - minY)).flatMap fun y =>
    (List.range' minX (maxX - minX)).map fun x => (x, y)

/-- `App::selection_image` (main.rs:37-66): compute the integer bounding box
of the accumulated selection, allocate a zeroed
`(max_x - min_x) × (max_y - min_y)` output (`u32` subtraction: underflow is
a panic, modelled by `usizeSub`), recompute the mask over the *original*
dimensions `iw × ih`, and copy each bounding-box pixel whose mask bit is set
to its bounding-box-relative coordinate.  Returns
`(output width, output height, output pixels)`. -/
def selection_image (iw ih : Nat) (img : List Rgba) (sel : List Point) :
    Option (Nat × Nat × List Rgba) :=
  let minX := bboxMinX iw sel
  let minY := bboxMinY ih sel
  let maxX := bboxMaxX sel
  let maxY := bboxMaxY sel
  match usizeSub maxX minX, usizeSub maxY minY with
  | some bw, some bh =>
    match selection_mask iw ih sel with
    | none => none
    | some mask =>
      match cropLoop iw bw minX minY img mask (cropPts minX maxX minY maxY)
          (List.replicate (bw * bh) zeroPx) with
      | none => none
      | some out => some (bw, bh, out)
  | _, _ => none

/-! ## Pointer-event state machine (`CursorMoved` / `MouseInput` arms) -/

/-- The `CursorMoved` arm (main.rs:123-136): always record the cursor
position; when `selecting` and `elapsed.as_millis() >= 100` (elapsed
nanoseconds divided by 10^6, truncated — `Instant` is monotone, so the
subtraction is the truncated one), append the point, request a redraw
(the returned flag), and update `last_selection_event` to `now`. -/
def onCursorMoved (s : AppState) (now : Nat) (position : Point) :
    AppState × Bool :=
  let s' := { s with cursorPos := position }
  if s'.selecting = true ∧ 100 ≤ (now - s'.lastSelectionEvent) / 1000000 then
    ({ s' with selection := s'.selection ++ [position], lastSelectionEvent := now },
      true)
  else (s', false)

/-- The `MouseInput` arm (main.rs:137-152): on press, set `selecting` and
clear the polygon; on release, clear `selecting` and hand
`selection_image()` of the polygon as accumulated at that instant to the
clipboard collaborator (`provide_image_for_pasting`), modelled as the second
component (`none` = nothing published). -/
def onMouseInput (s : AppState) (pressed : Bool) :
    AppState × Option (Option (Nat × Nat × List Rgba)) :=
  if pressed then ({ s with selecting := true, selection := [] }, none)
  else ({ s with selecting := false },
    some (selection_image s.iw s.ih s.image s.selection))

/-! ## Spec-side definitions for the rasterizer claims

The claim describes the algorithm span by span; the following definitions
transcribe that description declaratively (a pixel is set iff some scanline's
some span covers it), to be compared with the imperative `selection_mask`. -/

/-- Claim-side span coverage, as the claim literally words it: the span's
pixels run from `ceil` of the span start (clipped below at 0) to `floor` of
the span end (clipped above at `width - 1`), the bounds being *integers* —
an empty set when the end falls below the start (in particular when the
clipped end is negative). -/
def spanPixelsOrig (width y : Nat) (se : ℚ × ℚ) (j : Nat) : Bool :=
  let st : Int := ⌈max se.1 0⌉
  let en : Int := ⌊min se.2 ((width - 1 : Nat) : ℚ)⌋
  (List.range' (Int.toNat st) (Int.toNat (en + 1 - st))).any fun x =>
    decide (j = y * width + x)

/-- Amended span coverage: as `spanPixelsOrig`, but the clipped span end is
additionally saturated below at 0 — this is what the code's `as usize` cast
of the possibly negative `floor` result does — so that a span lying entirely
to the left of the image still covers pixel `x = 0`. -/
def spanPixels (width y : Nat) (se : ℚ × ℚ) (j : Nat) : Bool :=
  let st := Int.toNat ⌈max se.1 0⌉
  let en := Int.toNat ⌊min se.2 ((width - 1 : Nat) : ℚ)⌋
  (List.range' st (en + 1 - st)).any fun x => decide (j = y * width + x)

/-- The integer scanlines of the polygon's vertical bounding interval
clipped to `[0, height - 1]`, as the claim words it: the integers `y` with
`⌈max min_y 0⌉ ≤ y ≤ ⌊min max_y (height - 1)⌋` — an empty set when the
clipped interval is empty. -/
def specScanlines (height : Nat) (poly : List Point) : List Nat :=
  List.range' (Int.toNat ⌈max (polyMinY poly) 0⌉)
    (Int.toNat (⌊min (polyMaxY poly) ((height - 1 : Nat) : ℚ)⌋ + 1 -
      ⌈max (polyMinY poly) 0⌉))

/-- Claim-side mask bit (amended): pixel `j` is inside iff some scanline of
the clipped vertical bounding interval has some consecutive pair of sorted
crossings whose (rounded, clipped, 0-saturated) span covers it. -/
def specMask (width height : Nat) (poly : List Point) (j : Nat) : Bool :=
  (specScanlines height poly).any fun y =>
    (chunks2 (scanlineXs poly y)).any fun se => spanPixels width y se j

/-- Claim-side mask bit exactly as the claim states it (no 0-saturation of
the span end). -/
def specMaskOrig (width height : Nat) (poly : List Point) (j : Nat) : Bool :=
  (specScanlines height poly).any fun y =>
    (chunks2 (scanlineXs poly y)).any fun se => spanPixelsOrig width y se j

/-- Code-side span coverage including the redundant `x < width` loop guard
(main.rs:198). -/
def spanHit (width y : Nat) (se : ℚ × ℚ) (j : Nat) : Bool :=
  let st := Int.toNat ⌈max se.1 0⌉
  let en := Int.toNat ⌊min se.2 ((width - 1 : Nat) : ℚ)⌋
  (List.range' st (en + 1 - st)).any fun x =>
    decide (x < width) && decide (j = y * width + x)

/-- Code-side per-scanline coverage. -/
def lineHit (width : Nat) (poly : List Point) (y j : Nat) : Bool :=
  (chunks2 (scanlineXs poly y)).any fun se => spanHit width y se j

/-- Code-side mask bit: the scanline range uses the saturating `as usize`
casts of main.rs:173-174. -/
def maskBit (width height : Nat) (poly : List Point) (j : Nat) : Bool :=
  if poly.length < 3 then false
  else
    (List.range' (Int.toNat ⌈max (polyMinY poly) 0⌉)
      (Int.toNat ⌊min (polyMaxY poly) ((height - 1 : Nat) : ℚ)⌋ + 1 -
        Int.toNat ⌈max (polyMinY poly) 0⌉)).any fun y => lineHit width poly y j

/-- Modelled from the spec: the point-in-polygon ray-casting tester of
spec §4.2 ("an alternative/earlier strategy") is not part of
`src/main.rs` — only the scanline rasterizer is — so it is modelled from
the spec's words: an empty polygon is defined as "everything is inside";
otherwise, for each polygon edge `(p1, p2)` (consecutive points plus the
implicit closing edge) with `(p1.y > y) != (p2.y > y)`, compute the
x-intersection `x_i = p1.x + (y - p1.y) * (p2.x - p1.x) / (p2.y - p1.y)`
and count the point as inside iff the number of intersections with
`x_i > x` is odd. -/
def point_in_polygon (polygon : List Point) (q : Point) : Bool :=
  if polygon.length = 0 then true
  else
    decide (((edgeList polygon).filter fun pq =>
      (decide (pq.1.y > q.y) != decide (pq.2.y > q.y)) &&
        decide (interX q.y pq.1 pq.2 > q.x)).length % 2 = 1)

/-! ## Concrete inputs used by the claim instances -/

/-- The square polygon of the spec's §8 test, corners
`(10,10), (10,20), (20,20), (20,10)`. -/
def square30 : List Point := [⟨10, 10⟩, ⟨10, 20⟩, ⟨20, 20⟩, ⟨20, 10⟩]

/-- The spec's §8 crop-extractor triangle `(0,0), (10,0), (0,10)`. -/
def tri10 : List Point := [⟨0, 0⟩, ⟨10, 0⟩, ⟨0, 10⟩]

/-- A small triangle used to instantiate general theorems. -/
def triW : List Point := [⟨0, 0⟩, ⟨4, 0⟩, ⟨0, 4⟩]

/-- A triangle lying entirely to the left of the image: its spans have
negative clipped ends, whose `as usize` cast saturates to 0 and makes the
code fill pixel `x = 0` of scanlines 0-2 of a 3×3 target. -/
def triL : List Point := [⟨-5, 0⟩, ⟨-1, 5⟩, ⟨-5, 10⟩]

/-- A triangle crossing scanline 0, so that a `width = 0` target reaches the
`width - 1` subtraction. -/
def triU : List Point := [⟨0, -1⟩, ⟨2, 1⟩, ⟨0, 1⟩]

/-- A concrete 2×2 session state used to instantiate the event-handler and
compositor theorems. -/
def appEx : AppState :=
  { iw := 2, ih := 2,
    image := [⟨1, 2, 3, 4⟩, ⟨5, 6, 7, 8⟩, ⟨9, 10, 11, 12⟩, ⟨13, 14, 15, 17⟩],
    cursorPos := ⟨0, 0⟩, selecting := false, lastSelectionEvent := 0,
    selection := [] }

/-! ## Basic lemmas -/

theorem maskGet_replicate (n : Nat) (j : Nat) :
    maskGet (List.replicate n false) j = false := by
  unfold maskGet
  rcases Nat.lt_or_ge j n with h | h
  · simp [List.getD, List.getElem?_replicate, h]
  · simp [List.getD, List.getElem?_eq_none, h]

theorem maskGet_set (m : List Bool) (i j : Nat) (hi : i < m.length) :
    maskGet (m.set i true) j = (maskGet m j || decide (j = i)) := by
  unfold maskGet
  by_cases h : j = i
  · subst h
    simp [List.getD, List.getElem?_set_self, hi]
  · simp [List.getD, List.getElem?_set_ne (fun hh => h hh.symm), h]

theorem maskGet_of_le_length (m : List Bool) (j : Nat) (h : m.length ≤ j) :
    maskGet m j = false := by
  unfold maskGet
  simp [List.getD, List.getElem?_eq_none, h]

/-- Uniqueness of the row-major decomposition `y * w + x` with `x < w`. -/
theorem rowMajor_inj {w x₁ y₁ x₂ y₂ : Nat} (h₁ : x₁ < w) (h₂ : x₂ < w)
    (h : y₁ * w + x₁ = y₂ * w + x₂) : y₁ = y₂ ∧ x₁ = x₂ := by
  have hy : y₁ = y₂ := by
    have e₁ : (y₁ * w + x₁) / w = y₁ := by
      rw [Nat.mul_comm, Nat.mul_add_div (by omega), Nat.div_eq_of_lt h₁]
      omega
    have e₂ : (y₂ * w + x₂) / w = y₂ := by
      rw [Nat.mul_comm, Nat.mul_add_div (by omega), Nat.div_eq_of_lt h₂]
      omega
    rw [← e₁, ← e₂, h]
  refine ⟨hy, ?_⟩
  subst hy
  omega

section FoldMinMax

variable {α β : Type} [LinearOrder β]

theorem foldl_min_le_init (l : List α) (f : α → β) (a : β) :
    l.foldl (fun acc p => min acc (f p)) a ≤ a := by
  induction l generalizing a with
  | nil => exact le_refl a
  | cons q t ih => exact le_trans (ih (min a (f q))) (min_le_left _ _)

theorem foldl_min_le_mem (l : List α) (f : α → β) (a : β) :
    ∀ p ∈ l, l.foldl (fun acc p => min acc (f p)) a ≤ f p := by
  induction l generalizing a with
  | nil => intro p hp; cases hp
  | cons q t ih =>
    intro p hp
    rcases List.mem_cons.mp hp with h | h
    · subst h
      exact le_trans (foldl_min_le_init t f _) (min_le_right _ _)
    · exact ih _ p h

theorem le_foldl_min (l : List α) (f : α → β) (a c : β) (ha : c ≤ a)
    (hl : ∀ p ∈ l, c ≤ f p) : c ≤ l.foldl (fun acc p => min acc (f p)) a := by
  induction l generalizing a with
  | nil => exact ha
  | cons q t ih =>
    exact ih (min a (f q)) (le_min ha (hl q (List.mem_cons_self q t)))
      (fun p hp => hl p (List.mem_cons_of_mem _ hp))

theorem init_le_foldl_max (l : List α) (f : α → β) (a : β) :
    a ≤ l.foldl (fun acc p => max acc (f p)) a := by
  induction l generalizing a with
  | nil => exact le_refl a
  | cons q t ih => exact le_trans (le_max_left _ _) (ih (max a (f q)))

theorem mem_le_foldl_max (l : List α) (f : α → β) (a : β) :
    ∀ p ∈ l, f p ≤ l.foldl (fun acc p => max acc (f p)) a := by
  induction l generalizing a with
  | nil => intro p hp; cases hp
  | cons q t ih =>
    intro p hp
    rcases List.mem_cons.mp hp with h | h
    · subst h
      exact le_trans (le_max_right _ _) (init_le_foldl_max t f _)
    · exact ih _ p h

theorem foldl_max_le (l : List α) (f : α → β) (a c : β) (ha : a ≤ c)
    (hl : ∀ p ∈ l, f p ≤ c) : l.foldl (fun acc p => max acc (f p)) a ≤ c := by
  induction l generalizing a with
  | nil => exact ha
  | cons q t ih =>
    exact ih (max a (f q)) (max_le ha (hl q (List.mem_cons_self q t)))
      (fun p hp => hl p (List.mem_cons_of_mem _ hp))

end FoldMinMax

/-! ## Characterisation of the imperative fill loops -/

theorem fillXs_char (width y : Nat) (xs : List Nat) :
    ∀ mask : List Bool,
      (∀ x ∈ xs, x < width → y * width + x < mask.length) →
      ∃ m', fillXs width y xs mask = some m' ∧ m'.length = mask.length ∧
        ∀ j, maskGet m' j =
          (maskGet mask j ||
            xs.any fun x => decide (x < width) && decide (j = y * width + x)) := by
  induction xs with
  | nil =>
    intro mask _
    exact ⟨mask, rfl, rfl, fun j => by simp [fillXs]⟩
  | cons x rest ih =>
    intro mask hb
    by_cases hx : x < width
    · have hbound : y * width + x < mask.length := hb x (List.mem_cons_self x rest) hx
      have hset : setChecked mask (y * width + x) = some (mask.set (y * width + x) true) := by
        simp [setChecked, hbound]
      obtain ⟨m', hm', hlen, hchar⟩ := ih (mask.set (y * width + x) true)
        (by intro z hz hzw; simpa using hb z (List.mem_cons_of_mem _ hz) hzw)
      refine ⟨m', ?_, ?_, ?_⟩
      · simp [fillXs, hx, hset, hm']
      · simpa using hlen
      · intro j
        rw [hchar j, maskGet_set mask _ j hbound]
        simp [hx, Bool.or_assoc]
    · obtain ⟨m', hm', hlen, hchar⟩ := ih mask
        (fun z hz hzw => hb z (List.mem_cons_of_mem _ hz) hzw)
      refine ⟨m', ?_, hlen, ?_⟩
      · simp [fillXs, hx, hm']
      · intro j
        rw [hchar j]
        simp [hx]

theorem fillSpans_char (width y : Nat) (hw : 1 ≤ width) (spans : List (ℚ × ℚ)) :
    ∀ mask : List Bool,
      (∀ x, x < width → y * width + x < mask.length) →
      ∃ m', fillSpans width y spans mask = some m' ∧ m'.length = mask.length ∧
        ∀ j, maskGet m' j =
          (maskGet mask j || spans.any fun se => spanHit width y se j) := by
  induction spans with
  | nil =>
    intro mask _
    exact ⟨mask, rfl, rfl, fun j => by simp [fillSpans]⟩
  | cons se rest ih =>
    intro mask hb
    obtain ⟨s, e⟩ := se
    have hsub : usizeSub width 1 = some (width - 1) := by
      simp [usizeSub, hw]
    obtain ⟨m₁, hm₁, hlen₁, hchar₁⟩ :=
      fillXs_char width y
        (List.range' (Int.toNat ⌈max s 0⌉)
          (Int.toNat ⌊min e ((width - 1 : Nat) : ℚ)⌋ + 1 - Int.toNat ⌈max s 0⌉))
        mask (fun x _ hxw => hb x hxw)
    obtain ⟨m', hm', hlen, hchar⟩ := ih m₁ (by rw [hlen₁]; exact hb)
    refine ⟨m', ?_, by rw [hlen, hlen₁], ?_⟩
    · simp only [fillSpans, hsub]
      rw [hm₁]
      exact hm'
    · intro j
      rw [hchar j, hchar₁ j]
      simp [spanHit, Bool.or_assoc]

theorem fillScanlines_char (width : Nat) (hw : 1 ≤ width) (poly : List Point)
    (ys : List Nat) :
    ∀ mask : List Bool,
      (∀ y ∈ ys, ∀ x, x < width → y * width + x < mask.length) →
      ∃ m', fillScanlines width poly ys mask = some m' ∧ m'.length = mask.length ∧
        ∀ j, maskGet m' j =
          (maskGet mask j || ys.any fun y => lineHit width poly y j) := by
  induction ys with
  | nil =>
    intro mask _
    exact ⟨mask, rfl, rfl, fun j => by simp [fillScanlines]⟩
  | cons y rest ih =>
    intro mask hb
    obtain ⟨m₁, hm₁, hlen₁, hchar₁⟩ :=
      fillSpans_char width y hw (chunks2 (scanlineXs poly y)) mask
        (hb y (List.mem_cons_self y rest))
    obtain ⟨m', hm', hlen, hchar⟩ := ih m₁
      (by rw [hlen₁]; exact fun z hz => hb z (List.mem_cons_of_mem _ hz))
    refine ⟨m', ?_, by rw [hlen, hlen₁], ?_⟩
    · simp only [fillScanlines]
      rw [hm₁]
      exact hm'
    · intro j
      rw [hchar j, hchar₁ j]
      simp [lineHit, Bool.or_assoc]

/-- Full characterisation of `selection_mask` under the `width ≥ 1`,
`height ≥ 1` precondition: it returns `some` (no panic), the mask has
exactly `width * height` entries, and entry `j` equals the code-side
declarative coverage bit `maskBit`. -/
theorem selection_mask_char (w h : Nat) (poly : List Point) (hw : 1 ≤ w)
    (hh : 1 ≤ h) :
    ∃ m, selection_mask w h poly = some m ∧ m.length = w * h ∧
      ∀ j, maskGet m j = maskBit w h poly j := by
  by_cases hp : poly.length < 3
  · refine ⟨List.replicate (w * h) false, ?_, by simp, ?_⟩
    · simp [selection_mask, hp]
    · intro j
      rw [maskGet_replicate]
      simp [maskBit, hp]
  · have hsub : usizeSub h 1 = some (h - 1) := by
      simp [usizeSub, hh]
    set minY := Int.toNat ⌈max (polyMinY poly) 0⌉ with hminY
    set maxY := Int.toNat ⌊min (polyMaxY poly) ((h - 1 : Nat) : ℚ)⌋ with hmaxY
    have hmaxY_le : maxY ≤ h - 1 := by
      rw [hmaxY]
      have h1 : (⌊min (polyMaxY poly) ((h - 1 : Nat) : ℚ)⌋ : Int) ≤ ((h - 1 : Nat) : Int) := by
        calc (⌊min (polyMaxY poly) ((h - 1 : Nat) : ℚ)⌋ : Int)
            ≤ ⌊((h - 1 : Nat) : ℚ)⌋ := Int.floor_le_floor (min_le_right _ _)
          _ = ((h - 1 : Nat) : Int) := Int.floor_natCast (h - 1)
      omega
    obtain ⟨m, hm, hlen, hchar⟩ :=
      fillScanlines_char w hw poly (List.range' minY (maxY + 1 - minY))
        (List.replicate (w * h) false)
        (by
          intro y hy x hxw
          rw [List.length_replicate]
          obtain ⟨hy1, hy2⟩ := List.mem_range'_1.mp hy
          have hyh : y ≤ h - 1 := by omega
          have : y * w + x < (y + 1) * w := by
            have := Nat.succ_le_of_lt hxw
            calc y * w + x < y * w + w := by omega
              _ = (y + 1) * w := by ring
          calc y * w + x < (y + 1) * w := this
            _ ≤ h * w := Nat.mul_le_mul_right w (by omega)
            _ = w * h := Nat.mul_comm h w
        )
    refine ⟨m, ?_, by rw [hlen, List.length_replicate], ?_⟩
    · simp only [selection_mask, if_neg hp, hsub]
      exact hm
    · intro j
      rw [hchar j, maskGet_replicate]
      simp [maskBit, hp, ← hminY, ← hmaxY]

/-! ## Bridging the code-side coverage to the claim-side description -/

theorem any_congr_mem {α : Type} {l : List α} {f g : α → Bool}
    (h : ∀ x ∈ l, f x = g x) : l.any f = l.any g := by
  induction l with
  | nil => rfl
  | cons x t ih =>
    simp only [List.any_cons, h x (List.mem_cons_self x t),
      ih (fun z hz => h z (List.mem_cons_of_mem _ hz))]

/-- The loop guard `x < width` is redundant: the clipped span end never
exceeds `width - 1`. -/
theorem spanHit_eq_spanPixels (width y : Nat) (hw : 1 ≤ width) (se : ℚ × ℚ)
    (j : Nat) : spanHit width y se j = spanPixels width y se j := by
  unfold spanHit spanPixels
  apply any_congr_mem
  intro x hx
  obtain ⟨_, hx2⟩ := List.mem_range'_1.mp hx
  have hen : (⌊min se.2 ((width - 1 : Nat) : ℚ)⌋ : Int) ≤ ((width - 1 : Nat) : Int) := by
    calc (⌊min se.2 ((width - 1 : Nat) : ℚ)⌋ : Int)
        ≤ ⌊((width - 1 : Nat) : ℚ)⌋ := Int.floor_le_floor (min_le_right _ _)
      _ = ((width - 1 : Nat) : Int) := Int.floor_natCast (width - 1)
  have hxw : x < width := by omega
  simp [hxw]

theorem mem_of_mem_edgeList (poly : List Point) {pq : Point × Point}
    (h : pq ∈ edgeList poly) : pq.1 ∈ poly ∧ pq.2 ∈ poly := by
  unfold edgeList at h
  obtain ⟨i, hi, hpq⟩ := List.mem_map.mp h
  have hilen : i < poly.length := List.mem_range.mp hi
  have hlen0 : 0 < poly.length := by omega
  subst hpq
  constructor
  · rw [List.getD_eq_getElem poly default hilen]
    exact List.getElem_mem hilen
  · have hmod : (i + 1) % poly.length < poly.length := Nat.mod_lt _ (by omega)
    rw [List.getD_eq_getElem poly default hmod]
    exact List.getElem_mem hmod

/-- If no vertex lies strictly above the scanline, the scanline has no
crossings. -/
theorem scanlineXs_eq_nil (poly : List Point) (y : ℚ)
    (h : ∀ p ∈ poly, ¬ y < p.y) : scanlineXs poly y = [] := by
  unfold scanlineXs
  have : ((edgeList poly).filterMap fun pq =>
      if crossB y pq.1 pq.2 then some (interX y pq.1 pq.2) else none) = [] := by
    rw [List.filterMap_eq_nil_iff]
    intro pq hpq
    obtain ⟨h1, h2⟩ := mem_of_mem_edgeList poly hpq
    have hc : crossB y pq.1 pq.2 = false := by
      unfold crossB
      simp [h pq.1 h1, h pq.2 h2]
    simp [hc]
  rw [this]
  rfl

theorem le_polyMaxY (poly : List Point) : ∀ p ∈ poly, p.y ≤ polyMaxY poly := by
  intro p hp
  cases poly with
  | nil => cases hp
  | cons q t =>
    rcases List.mem_cons.mp hp with h | h
    · rw [h]
      exact init_le_foldl_max t Point.y q.y
    · exact mem_le_foldl_max t Point.y q.y p h

theorem polyMinY_le_polyMaxY (poly : List Point) (h : poly ≠ []) :
    polyMinY poly ≤ polyMaxY poly := by
  cases poly with
  | nil => exact absurd rfl h
  | cons q t =>
    calc polyMinY (q :: t) ≤ q.y := foldl_min_le_init t Point.y q.y
      _ ≤ polyMaxY (q :: t) := init_le_foldl_max t Point.y q.y

/-- Code-side coverage equals the claim-side (amended) coverage: the only
difference is the saturating `as usize` cast of the scanline upper bound,
and when that saturation bites (`⌊min max_y (height-1)⌋ < 0`, i.e. the
whole polygon lies above the image), the extra `y = 0` scanline the code
visits has no crossings, so the coverage agrees. -/
theorem maskBit_eq_specMask (w h : Nat) (poly : List Point) (hw : 1 ≤ w)
    (_hh : 1 ≤ h) (hp : 3 ≤ poly.length) (j : Nat) :
    maskBit w h poly j = specMask w h poly j := by
  unfold maskBit specMask specScanlines lineHit
  rw [if_neg (by omega)]
  have hlo : (0 : Int) ≤ ⌈max (polyMinY poly) 0⌉ :=
    Int.ceil_nonneg (le_max_right _ _)
  set lo : Int := ⌈max (polyMinY poly) 0⌉ with hlodef
  set hi : Int := ⌊min (polyMaxY poly) ((h - 1 : Nat) : ℚ)⌋ with hhidef
  have hspan : ∀ y ∈ List.range' (Int.toNat lo) (Int.toNat hi + 1 - Int.toNat lo),
      ((chunks2 (scanlineXs poly (y : ℚ))).any fun se => spanHit w y se j) =
      ((chunks2 (scanlineXs poly (y : ℚ))).any fun se => spanPixels w y se j) :=
    fun y _ => any_congr_mem (fun se _ => spanHit_eq_spanPixels w y hw se j)
  rcases le_or_lt 0 hi with hhi | hhi
  · have hcnt : Int.toNat hi + 1 - Int.toNat lo = Int.toNat (hi + 1 - lo) := by omega
    rw [← hcnt]
    exact any_congr_mem hspan
  · have hcnt : Int.toNat (hi + 1 - lo) = 0 := by omega
    have hmax0 : polyMaxY poly < 0 := by
      by_contra hc
      push_neg at hc
      have hmin0 : (0 : ℚ) ≤ min (polyMaxY poly) ((h - 1 : Nat) : ℚ) :=
        le_min hc (by positivity)
      have : (0 : Int) ≤ hi := by
        rw [hhidef]
        exact Int.le_floor.mpr (by exact_mod_cast hmin0)
      omega
    have hmin0 : polyMinY poly < 0 :=
      lt_of_le_of_lt (polyMinY_le_polyMaxY poly (by intro hnil; rw [hnil] at hp; simp at hp)) hmax0
    have hlo0 : lo = 0 := by
      rw [hlodef, max_eq_right (le_of_lt hmin0), Int.ceil_zero]
    have hhitoNat : Int.toNat hi = 0 := by omega
    rw [hcnt, hlo0, hhitoNat]
    simp only [Int.toNat_zero, List.range'_zero, List.any_nil]
    have hnil : scanlineXs poly (0 : ℚ) = [] := by
      apply scanlineXs_eq_nil
      intro p hp'
      have hle := le_polyMaxY poly p hp'
      intro hcon
      exact absurd (lt_of_lt_of_le hcon (le_trans hle (le_of_lt hmax0))) (lt_irrefl 0)
    simp [List.range'_one, Nat.cast_zero, hnil, chunks2]

/-! ## Claims about the rasterizer -/

/-- C1 (amended): for every polygon with ≥ 3 points and target
`width ≥ 1`, `height ≥ 1`, the mask rasterizer terminates without panic and
computes exactly the even-odd scanline coverage: entry `j` is `true` iff
some integer scanline `y` of the polygon's vertical bounding interval
clipped to `[0, height-1]` has a consecutive pair (1st–2nd, 3rd–4th, …) of
its ascending-sorted edge crossings whose pixel span — from `ceil` of the
span start clipped below at 0, to `floor` of the span end clipped above at
`width - 1` *and saturated below at 0* (the `as usize` cast) — contains
`j`'s pixel; all other entries are `false` (`specMask` is that coverage
bit, `false` on every out-of-range index). -/
theorem C1_scanline_rasterizer (w h : Nat) (poly : List Point) (hw : 1 ≤ w)
    (hh : 1 ≤ h) (hp : 3 ≤ poly.length) :
    ∃ m, selection_mask w h poly = some m ∧ m.length = w * h ∧
      ∀ j, maskGet m j = specMask w h poly j := by
  obtain ⟨m, hm, hlen, hchar⟩ := selection_mask_char w h poly hw hh
  exact ⟨m, hm, hlen,
    fun j => (hchar j).trans (maskBit_eq_specMask w h poly hw hh hp j)⟩

theorem C1_scanline_rasterizer_witness :
    ∃ m, selection_mask 4 4 triW = some m ∧ m.length = 4 * 4 ∧
      ∀ j, maskGet m j = specMask 4 4 triW j :=
  C1_scanline_rasterizer 4 4 triW (by decide) (by decide) (by decide)

/-- C1 counterexample: for the triangle `triL` (entirely left of a 3×3
target) the computed mask sets pixel 0, but the claim's span rule — `x`
from `ceil` of the span start clipped below at 0 up to `floor` of the span
end clipped above at `width-1`, with no saturation of the (negative) end —
marks no pixel at all: the claim as stated is false at this input. -/
theorem C1_counterexample :
    ¬ (∀ m, selection_mask 3 3 triL = some m →
        ∀ j, maskGet m j = specMaskOrig 3 3 triL j) := by
  intro hcl
  have h0 := hcl ((selection_mask 3 3 triL).getD []) (by with_unfolding_all decide) 0
  exact absurd h0 (by with_unfolding_all decide)

/-- C6 (amended): for the square `(10,10),(10,20),(20,20),(20,10)` on a
30×30 target the mask marks exactly the pixels with `10 ≤ x ≤ 20` and
`10 ≤ y < 20` (the span-end `floor`/inclusive-range fill includes the
`x = 20` column). -/
theorem C6_square_mask :
    ∀ m, selection_mask 30 30 square30 = some m →
      ∀ x, x < 30 → ∀ y, y < 30 →
        maskGet m (y * 30 + x) = decide ((10 ≤ x ∧ x ≤ 20) ∧ 10 ≤ y ∧ y < 20) := by
  have hmask : selection_mask 30 30 square30 =
      some ((List.range (30 * 30)).map fun j =>
        decide ((10 ≤ j % 30 ∧ j % 30 ≤ 20) ∧ 10 ≤ j / 30 ∧ j / 30 < 20)) := by
    with_unfolding_all decide
  intro m hm x hx y hy
  rw [hmask] at hm
  injection hm with hm
  subst hm
  have hj : y * 30 + x < 30 * 30 := by omega
  unfold maskGet
  rw [List.getD_eq_getElem _ _ (by simpa using hj)]
  simp only [List.getElem_map, List.getElem_range]
  have h1 : (y * 30 + x) % 30 = x := by omega
  have h2 : (y * 30 + x) / 30 = y := by omega
  rw [h1, h2]

theorem C6_square_mask_witness :
    maskGet ((selection_mask 30 30 square30).getD []) (15 * 30 + 15) =
      decide ((10 ≤ 15 ∧ 15 ≤ 20) ∧ 10 ≤ 15 ∧ 15 < 20) :=
  C6_square_mask ((selection_mask 30 30 square30).getD [])
    (by with_unfolding_all decide) 15 (by decide) 15 (by decide)

/-- C6 counterexample: the claim says only `10 ≤ x < 20` is inside, but the
code's inclusive span fill (`for x in start..=end` with `end = 20`) marks
pixel `(20, 10)` inside as well. -/
theorem C6_counterexample :
    ¬ (∀ m, selection_mask 30 30 square30 = some m →
        ∀ x, x < 30 → ∀ y, y < 30 →
          maskGet m (y * 30 + x) = decide ((10 ≤ x ∧ x < 20) ∧ 10 ≤ y ∧ y < 20)) := by
  intro hcl
  exact absurd
    (hcl ((selection_mask 30 30 square30).getD []) (by with_unfolding_all decide)
      20 (by decide) 10 (by decide))
    (by with_unfolding_all decide)

/-- C8: rasterization is deterministic — the mask depends only on the
polygon and the dimensions (the embedding is a pure function of exactly
those inputs, so the two invocations are definitionally the same). -/
theorem C8_rasterize_deterministic (w h : Nat) (poly : List Point) :
    selection_mask w h poly = selection_mask w h poly := rfl

/-- C10: with `width ≥ 1` and `height ≥ 1` the rasterizer is total — it
returns `some` mask (i.e. no out-of-bounds write and no underflow: every
write `mask[y*width+x]` passes the bounds check) of exactly `width * height`
entries; with `height = 0` and ≥ 3 points the `height - 1` subtraction
underflows (`none` models the debug-build panic), and there is a ≥ 3-point
polygon for which `width = 0` reaches the underflowing `width - 1`. -/
theorem C10_mask_bounds (w h : Nat) (poly : List Point) :
    (1 ≤ w → 1 ≤ h → ∃ m, selection_mask w h poly = some m ∧ m.length = w * h) ∧
    (h = 0 → 3 ≤ poly.length → selection_mask w h poly = none) ∧
    (∃ p : List Point, 3 ≤ p.length ∧ selection_mask 0 1 p = none) := by
  refine ⟨?_, ?_, ?_⟩
  · intro hw hh
    obtain ⟨m, hm, hlen, _⟩ := selection_mask_char w h poly hw hh
    exact ⟨m, hm, hlen⟩
  · intro h0 hp
    subst h0
    have hnot : ¬ poly.length < 3 := by omega
    simp [selection_mask, hnot, usizeSub]
  · exact ⟨triU, by decide, by with_unfolding_all decide⟩

theorem C10_mask_bounds_witness :
    ∃ m, selection_mask 2 2 triW = some m ∧ m.length = 2 * 2 :=
  (C10_mask_bounds 2 2 triW).1 (by decide) (by decide)

/-! ## Frame compositor lemmas -/

theorem get?_eq_some_maskGet (m : List Bool) (j : Nat) (h : j < m.length) :
    m.get? j = some (maskGet m j) := by
  unfold maskGet
  rw [List.getD_eq_getElem m false h, List.get?_eq_getElem?,
    List.getElem?_eq_getElem h]

theorem compositeMasked_char (mask : List Bool) (img : List Rgba) :
    ∀ start : Nat, start + img.length ≤ mask.length →
    ∃ out, compositeMasked mask start img = some out ∧ out.length = img.length ∧
      ∀ k, k < img.length →
        out.getD k zeroPx =
          ⟨(img.getD k zeroPx).r, (img.getD k zeroPx).g, (img.getD k zeroPx).b,
            if maskGet mask (start + k) then (img.getD k zeroPx).a
            else (img.getD k zeroPx).a / 2⟩ := by
  induction img with
  | nil =>
    intro start _
    exact ⟨[], rfl, rfl, fun k hk => absurd hk (by simp)⟩
  | cons c rest ih =>
    intro start hlen
    have hstart : start < mask.length := by
      simp only [List.length_cons] at hlen
      omega
    obtain ⟨tl, htl, htlen, hchar⟩ := ih (start + 1)
      (by simp only [List.length_cons] at hlen; omega)
    refine ⟨⟨c.r, c.g, c.b,
        if maskGet mask start then c.a else c.a / 2⟩ :: tl, ?_, ?_, ?_⟩
    · simp only [compositeMasked, get?_eq_some_maskGet mask start hstart, htl]
      rfl
    · simp [htlen]
    · intro k hk
      cases k with
      | zero => simp
      | succ k' =>
        have hk' : k' < rest.length := by simpa using hk
        have := hchar k' hk'
        simpa [Nat.add_assoc, Nat.add_comm 1 k'] using this

theorem compositeMasked_all_true (img : List Rgba) :
    ∀ n start : Nat, start + img.length ≤ n →
    compositeMasked (List.replicate n true) start img = some img := by
  induction img with
  | nil => intro n start _; rfl
  | cons c rest ih =>
    intro n start hlen
    have hstart : start < n := by simp only [List.length_cons] at hlen; omega
    have hget : (List.replicate n true).get? start = some true := by
      rw [List.get?_eq_getElem?]
      simp [List.getElem?_replicate, hstart]
    simp only [compositeMasked, hget,
      ih n (start + 1) (by simp only [List.length_cons] at hlen; omega)]
    rfl

theorem compositeMasked_all_false (img : List Rgba) :
    ∀ n start : Nat, start + img.length ≤ n →
    compositeMasked (List.replicate n false) start img =
      some (img.map fun c => ⟨c.r, c.g, c.b, c.a / 2⟩) := by
  induction img with
  | nil => intro n start _; rfl
  | cons c rest ih =>
    intro n start hlen
    have hstart : start < n := by simp only [List.length_cons] at hlen; omega
    have hget : (List.replicate n false).get? start = some false := by
      rw [List.get?_eq_getElem?]
      simp [List.getElem?_replicate, hstart]
    simp only [compositeMasked, hget,
      ih n (start + 1) (by simp only [List.length_cons] at hlen; omega)]
    rfl

/-- C2: on redraw with ≥ 3 selection points the compositor copies every
pixel's RGB unchanged and keeps the source alpha exactly on mask-inside
pixels, halving it (integer division) outside; with < 3 points every pixel
is copied unchanged and no mask enters the computation; an all-`true` mask
reproduces the input exactly and an all-`false` mask halves every alpha. -/
theorem C2_compositor (s : AppState) (hiw : 1 ≤ s.iw) (hih : 1 ≤ s.ih)
    (hlen : s.image.length = s.iw * s.ih) :
    (3 ≤ s.selection.length →
      ∃ mask out, selection_mask s.iw s.ih s.selection = some mask ∧
        onRedraw s = some out ∧ out.length = s.image.length ∧
        ∀ i, i < s.image.length →
          (out.getD i zeroPx).r = (s.image.getD i zeroPx).r ∧
          (out.getD i zeroPx).g = (s.image.getD i zeroPx).g ∧
          (out.getD i zeroPx).b = (s.image.getD i zeroPx).b ∧
          (out.getD i zeroPx).a =
            (if maskGet mask i then (s.image.getD i zeroPx).a
             else (s.image.getD i zeroPx).a / 2)) ∧
    (s.selection.length < 3 → onRedraw s = some s.image) ∧
    (∀ img : List Rgba,
      compositeMasked (List.replicate img.length true) 0 img = some img) ∧
    (∀ img : List Rgba,
      compositeMasked (List.replicate img.length false) 0 img =
        some (img.map fun c => ⟨c.r, c.g, c.b, c.a / 2⟩)) := by
  refine ⟨?_, ?_, ?_, ?_⟩
  · intro h3
    obtain ⟨mask, hm, hmlen, _⟩ := selection_mask_char s.iw s.ih s.selection hiw hih
    obtain ⟨out, hout, holen, hchar⟩ := compositeMasked_char mask s.image 0
      (by omega)
    refine ⟨mask, out, hm, ?_, holen, ?_⟩
    · simp only [onRedraw, if_pos h3, hm]
      exact hout
    · intro i hi
      have := hchar i hi
      rw [this]
      simp
  · intro h3
    unfold onRedraw
    rw [if_neg (by omega)]
  · intro img
    exact compositeMasked_all_true img img.length 0 (by omega)
  · intro img
    exact compositeMasked_all_false img img.length 0 (by omega)

theorem C2_compositor_witness : onRedraw appEx = some appEx.image :=
  (C2_compositor appEx (by decide) (by decide) (by decide)).2.1 (by decide)

/-! ## Event-handler claims -/

/-- C7: a pointer move always records the cursor position; while
`Selecting`, the point is appended (and a redraw requested, and the
last-accepted timestamp set to `now`) iff at least the fixed 100 ms
throttle has elapsed since the last accepted point; otherwise — and always
while `Idle` — the polygon, the flag and the timestamp are unchanged. -/
theorem C7_move_throttle (s : AppState) (now : Nat) (pos : Point) :
    ((onCursorMoved s now pos).1.cursorPos = pos) ∧
    (((onCursorMoved s now pos).1.selection = s.selection ++ [pos] ∧
        (onCursorMoved s now pos).2 = true ∧
        (onCursorMoved s now pos).1.lastSelectionEvent = now) ↔
      (s.selecting = true ∧ 100 ≤ (now - s.lastSelectionEvent) / 1000000)) ∧
    (¬ (s.selecting = true ∧ 100 ≤ (now - s.lastSelectionEvent) / 1000000) →
      (onCursorMoved s now pos).1.selection = s.selection ∧
      (onCursorMoved s now pos).2 = false ∧
      (onCursorMoved s now pos).1.lastSelectionEvent = s.lastSelectionEvent) ∧
    (s.selecting = false →
      (onCursorMoved s now pos).1.selection = s.selection ∧
      (onCursorMoved s now pos).2 = false) := by
  by_cases hc : s.selecting = true ∧ 100 ≤ (now - s.lastSelectionEvent) / 1000000
  · obtain ⟨h1, h2⟩ := hc
    simp [onCursorMoved, h1, h2]
  · have hr : onCursorMoved s now pos = ({ s with cursorPos := pos }, false) := by
      simp only [onCursorMoved]
      rw [if_neg (by simpa using hc)]
    rw [hr]
    refine ⟨rfl, ?_, fun _ => ⟨rfl, rfl, rfl⟩, fun _ => ⟨rfl, rfl⟩⟩
    constructor
    · rintro ⟨-, hb, -⟩
      cases hb
    · intro h
      exact absurd h hc

theorem C7_move_throttle_witness :
    ((onCursorMoved appEx 200000000 ⟨3, 4⟩).1.selection = appEx.selection ∧
      (onCursorMoved appEx 200000000 ⟨3, 4⟩).2 = false ∧
      (onCursorMoved appEx 200000000 ⟨3, 4⟩).1.lastSelectionEvent =
        appEx.lastSelectionEvent) :=
  (C7_move_throttle appEx 200000000 ⟨3, 4⟩).2.2.1 (by decide)

/-- C9: every pointer-button release clears the `selecting` flag and hands
the crop of the polygon as accumulated at that instant to the clipboard
collaborator — unconditionally, so a release received while already Idle
(`selecting = false`) still crops and publishes the current (possibly
empty) polygon rather than being ignored. -/
theorem C9_release_always_publishes (s : AppState) :
    (onMouseInput s false).1.selecting = false ∧
    (onMouseInput s false).1.selection = s.selection ∧
    (onMouseInput s false).2 =
      some (selection_image s.iw s.ih s.image s.selection) ∧
    (∀ b : Bool, (onMouseInput { s with selecting := b } false).2 =
      some (selection_image s.iw s.ih s.image s.selection)) :=
  ⟨rfl, rfl, rfl, fun _ => rfl⟩

/-! ## Point-in-polygon degenerate policy (C5) -/

/-- The x-intersection of an edge with a horizontal line does not depend on
the edge's orientation (needed for the 2-point polygon, whose two edges are
the same segment traversed both ways). -/
theorem interX_symm (y : ℚ) (p1 p2 : Point) (h : p1.y ≠ p2.y) :
    interX y p1 p2 = interX y p2 p1 := by
  unfold interX
  have h1 : p2.y - p1.y ≠ 0 := sub_ne_zero.mpr (Ne.symm h)
  have h2 : p1.y - p2.y ≠ 0 := sub_ne_zero.mpr h
  field_simp
  ring

/-- On a polygon with fewer than 3 points the ray-casting tester is constant:
`true` for the empty polygon (by the spec's explicit policy), `false` for 1
or 2 points (the crossing count is always even: a single degenerate edge
never crosses, and the two opposite copies of a 2-point edge cross
together, at the same x). -/
theorem point_in_polygon_degenerate (poly : List Point) (h : poly.length < 3) :
    ∀ q, point_in_polygon poly q = decide (poly.length = 0) := by
  intro q
  match poly with
  | [] => rfl
  | [a] =>
    have he : edgeList [a] = [(a, a)] := by simp [edgeList, List.range_succ]
    simp [point_in_polygon, he]
  | [a, b] =>
    have he : edgeList [a, b] = [(a, b), (b, a)] := by simp [edgeList, List.range_succ]
    by_cases hab : decide (a.y > q.y) = decide (b.y > q.y)
    · simp [point_in_polygon, he, hab]
    · have hne : a.y ≠ b.y := by
        intro hcon
        exact hab (by rw [hcon])
      have hix : interX q.y b a = interX q.y a b := (interX_symm q.y a b hne).symm
      unfold point_in_polygon
      rw [he, if_neg (by simp)]
      simp only [List.filter_cons, List.filter_nil, hix]
      cases hA : decide (a.y > q.y) <;> cases hB : decide (b.y > q.y) <;>
        cases hC : decide (interX q.y a b > q.x) <;>
        simp_all
  | a :: b :: c :: t => simp at h; omega

/-- C5: for polygons with fewer than 3 points, the point-in-polygon tester
returns "inside" for every query point iff the polygon is empty, and
"outside" for every query point iff it has 1 or 2 points. -/
theorem C5_degenerate_policy (poly : List Point) (h : poly.length < 3) :
    ((∀ q, point_in_polygon poly q = true) ↔ poly.length = 0) ∧
    ((∀ q, point_in_polygon poly q = false) ↔
      poly.length = 1 ∨ poly.length = 2) := by
  have hp := point_in_polygon_degenerate poly h
  constructor
  · constructor
    · intro hall
      have hq := hall ⟨0, 0⟩
      rw [hp ⟨0, 0⟩] at hq
      exact of_decide_eq_true hq
    · intro h0 q
      rw [hp q, h0]
      rfl
  · constructor
    · intro hall
      have hq := hall ⟨0, 0⟩
      rw [hp ⟨0, 0⟩] at hq
      have h0 : ¬ poly.length = 0 := by
        intro hc
        rw [hc] at hq
        simp at hq
      omega
    · intro h12 q
      rw [hp q]
      have h0 : ¬ poly.length = 0 := by omega
      simp [h0]

theorem C5_degenerate_policy_witness :
    point_in_polygon [(⟨0, 0⟩ : Point)] ⟨5, 5⟩ = false :=
  ((C5_degenerate_policy [⟨0, 0⟩] (by decide)).2.mpr (Or.inl rfl)) ⟨5, 5⟩

/-! ## Crop extractor lemmas -/

theorem get?_eq_some_getD {α : Type} (l : List α) (d : α) (j : Nat)
    (h : j < l.length) : l.get? j = some (l.getD j d) := by
  rw [List.getD_eq_getElem l d h, List.get?_eq_getElem?, List.getElem?_eq_getElem h]

theorem getD_set_self {α : Type} (l : List α) (a d : α) (i : Nat)
    (h : i < l.length) : (l.set i a).getD i d = a := by
  simp [List.getD, List.getElem?_set_self, h]

theorem getD_set_ne {α : Type} (l : List α) (a d : α) {i j : Nat} (hij : i ≠ j) :
    (l.set i a).getD j d = l.getD j d := by
  simp [List.getD, List.getElem?_set_ne hij]

theorem getD_replicate_self {α : Type} (n : Nat) (a : α) (j : Nat) :
    (List.replicate n a).getD j a = a := by
  rcases Nat.lt_or_ge j n with h | h
  · simp [List.getD, List.getElem?_replicate, h]
  · simp [List.getD, List.getElem?_eq_none, h]

theorem mem_cropPts (minX maxX minY maxY : Nat) (p : Nat × Nat) :
    p ∈ cropPts minX maxX minY maxY ↔
      (minX ≤ p.1 ∧ p.1 < maxX) ∧ (minY ≤ p.2 ∧ p.2 < maxY) := by
  obtain ⟨x, y⟩ := p
  simp only [cropPts, List.mem_flatMap, List.mem_map, List.mem_range'_1,
    Prod.mk.injEq]
  constructor
  · rintro ⟨y', hy', x', hx', hxx, hyy⟩
    subst hxx; subst hyy
    omega
  · rintro ⟨⟨hx1, hx2⟩, hy1, hy2⟩
    exact ⟨y, by omega, x, by omega, rfl, rfl⟩

theorem cropPts_pairwise (minX maxX minY maxY : Nat) :
    (cropPts minX maxX minY maxY).Pairwise (fun p p' =>
      (p.2 - minY) * (maxX - minX) + (p.1 - minX) ≠
        (p'.2 - minY) * (maxX - minX) + (p'.1 - minX)) := by
  rw [cropPts, List.pairwise_flatMap]
  constructor
  · intro y _
    rw [List.pairwise_map]
    refine List.Pairwise.imp_of_mem ?_ (List.nodup_range' _ _)
    intro x x' hx hx' hne
    obtain ⟨hx1, hx2⟩ := List.mem_range'_1.mp hx
    obtain ⟨hx1', hx2'⟩ := List.mem_range'_1.mp hx'
    simp only
    omega
  · refine List.Pairwise.imp_of_mem ?_ (List.nodup_range' _ _)
    intro y y' hy hy' hne p hp p' hp'
    obtain ⟨x, hxm, hxe⟩ := List.mem_map.mp hp
    obtain ⟨x', hxm', hxe'⟩ := List.mem_map.mp hp'
    subst hxe; subst hxe'
    obtain ⟨hy1, hy2⟩ := List.mem_range'_1.mp hy
    obtain ⟨hy1', hy2'⟩ := List.mem_range'_1.mp hy'
    obtain ⟨hx1, hx2⟩ := List.mem_range'_1.mp hxm
    obtain ⟨hx1', hx2'⟩ := List.mem_range'_1.mp hxm'
    simp only
    intro hcon
    have hlt : x - minX < maxX - minX := by omega
    have hlt' : x' - minX < maxX - minX := by omega
    obtain ⟨he1, -⟩ := rowMajor_inj hlt hlt' hcon
    omega

theorem cropLoop_char (iw bw minX minY : Nat) (img : List Rgba)
    (mask : List Bool) (pts : List (Nat × Nat)) :
    ∀ out : List Rgba,
      (∀ p ∈ pts, p.2 * iw + p.1 < img.length) →
      (∀ p ∈ pts, p.2 * iw + p.1 < mask.length) →
      (∀ p ∈ pts, (p.2 - minY) * bw + (p.1 - minX) < out.length) →
      pts.Pairwise (fun p p' =>
        (p.2 - minY) * bw + (p.1 - minX) ≠ (p'.2 - minY) * bw + (p'.1 - minX)) →
      ∃ out', cropLoop iw bw minX minY img mask pts out = some out' ∧
        out'.length = out.length ∧
        (∀ j, j < out.length →
          (∀ p ∈ pts, (p.2 - minY) * bw + (p.1 - minX) ≠ j) →
          out'.getD j zeroPx = out.getD j zeroPx) ∧
        (∀ p ∈ pts, out'.getD ((p.2 - minY) * bw + (p.1 - minX)) zeroPx =
          if maskGet mask (p.2 * iw + p.1) then img.getD (p.2 * iw + p.1) zeroPx
          else out.getD ((p.2 - minY) * bw + (p.1 - minX)) zeroPx) := by
  induction pts with
  | nil =>
    intro out _ _ _ _
    exact ⟨out, rfl, rfl, fun j _ _ => rfl, fun p hp => absurd hp (List.not_mem_nil p)⟩
  | cons q rest ih =>
    intro out himg hmask hout hpw
    obtain ⟨x, y⟩ := q
    have hmemq : (x, y) ∈ (x, y) :: rest := List.mem_cons_self _ _
    have himgq : y * iw + x < img.length := himg (x, y) hmemq
    have hmaskq : y * iw + x < mask.length := hmask (x, y) hmemq
    have houtq : (y - minY) * bw + (x - minX) < out.length := hout (x, y) hmemq
    obtain ⟨hq, hpwrest⟩ := List.pairwise_cons.mp hpw
    have hgi : img.get? (y * iw + x) = some (img.getD (y * iw + x) zeroPx) :=
      get?_eq_some_getD img zeroPx _ himgq
    have hgm : mask.get? (y * iw + x) = some (maskGet mask (y * iw + x)) :=
      get?_eq_some_maskGet mask _ hmaskq
    by_cases hb : maskGet mask (y * iw + x) = true
    · have hstep : cropStep iw bw minX minY img mask out x y =
          some (out.set ((y - minY) * bw + (x - minX))
            (img.getD (y * iw + x) zeroPx)) := by
        simp only [cropStep, hgi, hgm, hb, if_pos, houtq]
      obtain ⟨out', hout', hlen', huntouched, hhit⟩ :=
        ih (out.set ((y - minY) * bw + (x - minX)) (img.getD (y * iw + x) zeroPx))
          (fun p hp => himg p (List.mem_cons_of_mem _ hp))
          (fun p hp => hmask p (List.mem_cons_of_mem _ hp))
          (fun p hp => by
            rw [List.length_set]
            exact hout p (List.mem_cons_of_mem _ hp))
          hpwrest
      refine ⟨out', ?_, by rw [hlen', List.length_set], ?_, ?_⟩
      · simp only [cropLoop, hstep]
        exact hout'
      · intro j hj hnone
        rw [huntouched j (by rw [List.length_set]; exact hj)
          (fun p hp => hnone p (List.mem_cons_of_mem _ hp))]
        exact getD_set_ne out _ zeroPx (hnone (x, y) hmemq)
      · intro p hp
        rcases List.mem_cons.mp hp with hpq | hpr
        · rw [hpq]
          rw [huntouched ((y - minY) * bw + (x - minX))
            (by rw [List.length_set]; exact houtq)
            (fun p' hp' => (hq p' hp').symm)]
          rw [getD_set_self out _ zeroPx _ houtq, hb, if_pos rfl]
        · rw [hhit p hpr]
          by_cases hbp : maskGet mask (p.2 * iw + p.1) = true
          · rw [if_pos hbp, if_pos hbp]
          · rw [if_neg hbp, if_neg hbp]
            exact getD_set_ne out _ zeroPx (hq p hpr)
    · have hb' : maskGet mask (y * iw + x) = false := by
        cases hmg : maskGet mask (y * iw + x)
        · rfl
        · exact absurd hmg hb
      have hstep : cropStep iw bw minX minY img mask out x y = some out := by
        simp only [cropStep, hgi, hgm, hb']
        rw [if_neg (by simp)]
      obtain ⟨out', hout', hlen', huntouched, hhit⟩ :=
        ih out
          (fun p hp => himg p (List.mem_cons_of_mem _ hp))
          (fun p hp => hmask p (List.mem_cons_of_mem _ hp))
          (fun p hp => hout p (List.mem_cons_of_mem _ hp))
          hpwrest
      refine ⟨out', ?_, hlen', ?_, ?_⟩
      · simp only [cropLoop, hstep]
        exact hout'
      · intro j hj hnone
        exact huntouched j hj (fun p hp => hnone p (List.mem_cons_of_mem _ hp))
      · intro p hp
        rcases List.mem_cons.mp hp with hpq | hpr
        · rw [hpq]
          rw [huntouched ((y - minY) * bw + (x - minX)) houtq
            (fun p' hp' => (hq p' hp').symm)]
          rw [hb', if_neg (by simp)]
        · exact hhit p hpr

theorem bboxMinX_le_of_mem (iw : Nat) (sel : List Point) {p : Point}
    (hp : p ∈ sel) : bboxMinX iw sel ≤ f64AsU32 p.x :=
  foldl_min_le_mem sel (fun p => f64AsU32 p.x) iw p hp

theorem le_bboxMaxX_of_mem (sel : List Point) {p : Point} (hp : p ∈ sel) :
    f64AsU32 p.x ≤ bboxMaxX sel :=
  mem_le_foldl_max sel (fun p => f64AsU32 p.x) 0 p hp

theorem bboxMinY_le_of_mem (ih : Nat) (sel : List Point) {p : Point}
    (hp : p ∈ sel) : bboxMinY ih sel ≤ f64AsU32 p.y :=
  foldl_min_le_mem sel (fun p => f64AsU32 p.y) ih p hp

theorem le_bboxMaxY_of_mem (sel : List Point) {p : Point} (hp : p ∈ sel) :
    f64AsU32 p.y ≤ bboxMaxY sel :=
  mem_le_foldl_max sel (fun p => f64AsU32 p.y) 0 p hp

theorem bboxMaxX_le (iw : Nat) (sel : List Point)
    (h : ∀ p ∈ sel, f64AsU32 p.x ≤ iw) : bboxMaxX sel ≤ iw :=
  foldl_max_le sel (fun p => f64AsU32 p.x) 0 iw (Nat.zero_le iw) h

theorem bboxMaxY_le (ih : Nat) (sel : List Point)
    (h : ∀ p ∈ sel, f64AsU32 p.y ≤ ih) : bboxMaxY sel ≤ ih :=
  foldl_max_le sel (fun p => f64AsU32 p.y) 0 ih (Nat.zero_le ih) h

theorem bboxMinX_le_bboxMaxX (iw : Nat) (sel : List Point) (h : sel ≠ []) :
    bboxMinX iw sel ≤ bboxMaxX sel := by
  cases sel with
  | nil => exact absurd rfl h
  | cons p t =>
    calc bboxMinX iw (p :: t) ≤ f64AsU32 p.x :=
        bboxMinX_le_of_mem iw (p :: t) (List.mem_cons_self p t)
      _ ≤ bboxMaxX (p :: t) := le_bboxMaxX_of_mem (p :: t) (List.mem_cons_self p t)

theorem bboxMinY_le_bboxMaxY (ih : Nat) (sel : List Point) (h : sel ≠ []) :
    bboxMinY ih sel ≤ bboxMaxY sel := by
  cases sel with
  | nil => exact absurd rfl h
  | cons p t =>
    calc bboxMinY ih (p :: t) ≤ f64AsU32 p.y :=
        bboxMinY_le_of_mem ih (p :: t) (List.mem_cons_self p t)
      _ ≤ bboxMaxY (p :: t) := le_bboxMaxY_of_mem (p :: t) (List.mem_cons_self p t)

/-- Full characterisation of `App::selection_image` for a nonempty
selection whose cast coordinates lie within the source raster: no panic,
the output raster is `(max_x - min_x) × (max_y - min_y)`, the mask is the
full-dimension rasterizer mask, and each bounding-box pixel is copied to
its bounding-box-relative coordinate exactly when the mask marks it inside,
every other output entry staying at the zeroed default. -/
theorem selection_image_char (iw ih : Nat) (img : List Rgba)
    (sel : List Point) (hiw : 1 ≤ iw) (hih : 1 ≤ ih)
    (himg : img.length = iw * ih) (hne : sel ≠ [])
    (hx : ∀ p ∈ sel, f64AsU32 p.x ≤ iw) (hy : ∀ p ∈ sel, f64AsU32 p.y ≤ ih) :
    ∃ mask out, selection_mask iw ih sel = some mask ∧
      selection_image iw ih img sel =
        some (bboxMaxX sel - bboxMinX iw sel, bboxMaxY sel - bboxMinY ih sel, out) ∧
      out.length =
        (bboxMaxX sel - bboxMinX iw sel) * (bboxMaxY sel - bboxMinY ih sel) ∧
      ∀ x y : Nat, bboxMinX iw sel ≤ x → x < bboxMaxX sel →
        bboxMinY ih sel ≤ y → y < bboxMaxY sel →
        out.getD ((y - bboxMinY ih sel) * (bboxMaxX sel - bboxMinX iw sel) +
            (x - bboxMinX iw sel)) zeroPx =
          (if maskGet mask (y * iw + x) then img.getD (y * iw + x) zeroPx
           else zeroPx) := by
  set mX := bboxMinX iw sel with hmX
  set mY := bboxMinY ih sel with hmY
  set MX := bboxMaxX sel with hMX
  set MY := bboxMaxY sel with hMY
  have hmMX : mX ≤ MX := bboxMinX_le_bboxMaxX iw sel hne
  have hmMY : mY ≤ MY := bboxMinY_le_bboxMaxY ih sel hne
  have hMXiw : MX ≤ iw := bboxMaxX_le iw sel hx
  have hMYih : MY ≤ ih := bboxMaxY_le ih sel hy
  obtain ⟨mask, hm, hmlen, -⟩ := selection_mask_char iw ih sel hiw hih
  have hbound : ∀ p ∈ cropPts mX MX mY MY, p.2 * iw + p.1 < iw * ih := by
    intro p hp
    obtain ⟨⟨hx1, hx2⟩, hy1, hy2⟩ := (mem_cropPts mX MX mY MY p).mp hp
    have h1 : p.2 * iw + p.1 < (p.2 + 1) * iw := by
      have : p.1 < iw := by omega
      calc p.2 * iw + p.1 < p.2 * iw + iw := by omega
        _ = (p.2 + 1) * iw := by ring
    calc p.2 * iw + p.1 < (p.2 + 1) * iw := h1
      _ ≤ ih * iw := Nat.mul_le_mul_right iw (by omega)
      _ = iw * ih := Nat.mul_comm ih iw
  obtain ⟨out, hloop, holen, -, hhit⟩ :=
    cropLoop_char iw (MX - mX) mX mY img mask (cropPts mX MX mY MY)
      (List.replicate ((MX - mX) * (MY - mY)) zeroPx)
      (fun p hp => by rw [himg]; exact hbound p hp)
      (fun p hp => by rw [hmlen]; exact hbound p hp)
      (fun p hp => by
        obtain ⟨⟨hx1, hx2⟩, hy1, hy2⟩ := (mem_cropPts mX MX mY MY p).mp hp
        rw [List.length_replicate]
        have h1 : (p.2 - mY) * (MX - mX) + (p.1 - mX) <
            (p.2 - mY + 1) * (MX - mX) := by
          have : p.1 - mX < MX - mX := by omega
          calc (p.2 - mY) * (MX - mX) + (p.1 - mX)
              < (p.2 - mY) * (MX - mX) + (MX - mX) := by omega
            _ = (p.2 - mY + 1) * (MX - mX) := by ring
        calc (p.2 - mY) * (MX - mX) + (p.1 - mX)
            < (p.2 - mY + 1) * (MX - mX) := h1
          _ ≤ (MY - mY) * (MX - mX) := Nat.mul_le_mul_right _ (by omega)
          _ = (MX - mX) * (MY - mY) := Nat.mul_comm _ _)
      (cropPts_pairwise mX MX mY MY)
  refine ⟨mask, out, hm, ?_, by rw [holen, List.length_replicate], ?_⟩
  · simp only [selection_image, ← hmX, ← hmY, ← hMX, ← hMY]
    have hsubX : usizeSub MX mX = some (MX - mX) := by simp [usizeSub, hmMX]
    have hsubY : usizeSub MY mY = some (MY - mY) := by simp [usizeSub, hmMY]
    rw [hsubX, hsubY, hm]
    show (match cropLoop iw (MX - mX) mX mY img mask (cropPts mX MX mY MY)
        (List.replicate ((MX - mX) * (MY - mY)) zeroPx) with
      | none => none
      | some out => some (MX - mX, MY - mY, out)) = some (MX - mX, MY - mY, out)
    rw [hloop]
  · intro x y hx1 hx2 hy1 hy2
    have hmem : (x, y) ∈ cropPts mX MX mY MY :=
      (mem_cropPts mX MX mY MY (x, y)).mpr ⟨⟨hx1, hx2⟩, hy1, hy2⟩
    have := hhit (x, y) hmem
    simp only at this
    rw [this]
    by_cases hb : maskGet mask (y * iw + x) = true
    · rw [if_pos hb, if_pos hb]
    · rw [if_neg hb, if_neg hb, getD_replicate_self]

/-- C3: the crop extractor computes the integer bounding box of the
polygon's cast coordinates, allocates a `(max_x - min_x) × (max_y - min_y)`
output, recomputes the mask over the original full dimensions, and copies
each bounding-box pixel to its bounding-box-relative coordinate exactly
when the full-dimension mask marks it inside, leaving every other output
pixel zeroed (every output entry is covered by the quantified
characterisation, the mask-outside ones receiving `zeroPx`).  In
particular, for the triangle `(0,0),(10,0),(0,10)` against any 20×20
source, the output is a 10×10 raster equal to the source below the
hypotenuse (`x + y ≤ 10`) and zeroed above it. -/
theorem C3_crop_extractor (iw ih : Nat) (img : List Rgba) (sel : List Point)
    (hiw : 1 ≤ iw) (hih : 1 ≤ ih) (himg : img.length = iw * ih)
    (hne : sel ≠ []) (hx : ∀ p ∈ sel, f64AsU32 p.x ≤ iw)
    (hy : ∀ p ∈ sel, f64AsU32 p.y ≤ ih) :
    (∃ mask out, selection_mask iw ih sel = some mask ∧
      selection_image iw ih img sel =
        some (bboxMaxX sel - bboxMinX iw sel, bboxMaxY sel - bboxMinY ih sel,
          out) ∧
      out.length =
        (bboxMaxX sel - bboxMinX iw sel) * (bboxMaxY sel - bboxMinY ih sel) ∧
      ∀ x y : Nat, bboxMinX iw sel ≤ x → x < bboxMaxX sel →
        bboxMinY ih sel ≤ y → y < bboxMaxY sel →
        out.getD ((y - bboxMinY ih sel) * (bboxMaxX sel - bboxMinX iw sel) +
            (x - bboxMinX iw sel)) zeroPx =
          (if maskGet mask (y * iw + x) then img.getD (y * iw + x) zeroPx
           else zeroPx)) ∧
    (∀ src : List Rgba, src.length = 20 * 20 →
      ∃ out, selection_image 20 20 src tri10 = some (10, 10, out) ∧
        out.length = 10 * 10 ∧
        ∀ x y : Nat, x < 10 → y < 10 →
          out.getD (y * 10 + x) zeroPx =
            (if x + y ≤ 10 then src.getD (y * 20 + x) zeroPx else zeroPx)) := by
  constructor
  · exact selection_image_char iw ih img sel hiw hih himg hne hx hy
  · intro src hsrc
    have htri : selection_mask 20 20 tri10 =
        some ((List.range (20 * 20)).map fun j =>
          decide (j % 20 + j / 20 ≤ 10 ∧ j / 20 ≤ 9)) := by
      with_unfolding_all decide
    have hb1 : bboxMinX 20 tri10 = 0 := by with_unfolding_all decide
    have hb2 : bboxMinY 20 tri10 = 0 := by with_unfolding_all decide
    have hb3 : bboxMaxX tri10 = 10 := by with_unfolding_all decide
    have hb4 : bboxMaxY tri10 = 10 := by with_unfolding_all decide
    obtain ⟨mask, out, hm, himg', hlen, hchar⟩ :=
      selection_image_char 20 20 src tri10 (by decide) (by decide) hsrc
        (by decide) (by with_unfolding_all decide)
        (by with_unfolding_all decide)
    rw [htri] at hm
    injection hm with hm
    subst hm
    rw [hb1, hb2, hb3, hb4] at himg' hlen hchar
    refine ⟨out, by simpa using himg', by simpa using hlen, ?_⟩
    intro x y hxlt hylt
    have hc := hchar x y (by omega) (by omega) (by omega) (by omega)
    simp only [Nat.sub_zero] at hc
    have hj : y * 20 + x < 20 * 20 := by omega
    have hmg : maskGet ((List.range (20 * 20)).map fun j =>
        decide (j % 20 + j / 20 ≤ 10 ∧ j / 20 ≤ 9)) (y * 20 + x) =
        decide (x + y ≤ 10) := by
      unfold maskGet
      rw [List.getD_eq_getElem _ _ (by simpa using hj)]
      simp only [List.getElem_map, List.getElem_range]
      have h1 : (y * 20 + x) % 20 = x := by omega
      have h2 : (y * 20 + x) / 20 = y := by omega
      rw [h1, h2]
      exact decide_eq_decide.mpr
        ⟨fun hand => by omega, fun hxy => ⟨by omega, by omega⟩⟩
    rw [hmg] at hc
    rw [hc]
    by_cases hcase : x + y ≤ 10
    · rw [if_pos hcase, if_pos (by simpa using hcase)]
    · rw [if_neg hcase, if_neg (by simpa using hcase)]

theorem C3_crop_extractor_witness :
    ∃ out,
      selection_image 20 20 (List.replicate 400 (⟨9, 9, 9, 9⟩ : Rgba)) tri10 =
        some (10, 10, out) ∧
      out.length = 10 * 10 ∧
      ∀ x y : Nat, x < 10 → y < 10 →
        out.getD (y * 10 + x) zeroPx =
          (if x + y ≤ 10 then
            (List.replicate 400 (⟨9, 9, 9, 9⟩ : Rgba)).getD (y * 20 + x) zeroPx
           else zeroPx) :=
  (C3_crop_extractor 20 20 (List.replicate 400 ⟨9, 9, 9, 9⟩) tri10
    (by decide) (by decide) (by decide) (by decide)
    (by with_unfolding_all decide) (by with_unfolding_all decide)).2
    (List.replicate 400 ⟨9, 9, 9, 9⟩) (by decide)

/-- C4 (the code contradicts the spec here): for the *empty* polygon the
crop extractor does not fail gracefully — `max_x - min_x` is the `u32`
subtraction `0 - image_width`, which underflows (debug-build panic,
modelled as `none`); no empty raster is emitted and no "selection too
small" condition exists anywhere in the code. -/
theorem C4_empty_selection_underflow :
    selection_image 20 20 (List.replicate 400 zeroPx) [] = none ∧
    (∀ img : List Rgba, ∀ iw ih : Nat, 1 ≤ iw →
      selection_image iw ih img [] = none) := by
  have hgen : ∀ img : List Rgba, ∀ iw ih : Nat, 1 ≤ iw →
      selection_image iw ih img [] = none := by
    intro img iw ih hiw
    have hsub : usizeSub (bboxMaxX ([] : List Point)) (bboxMinX iw []) = none := by
      show usizeSub 0 iw = none
      simp only [usizeSub]
      rw [if_neg (by omega)]
    simp only [selection_image, hsub]
  exact ⟨hgen (List.replicate 400 zeroPx) 20 20 (by decide), hgen⟩

theorem C4_empty_selection_underflow_witness :
    selection_image 5 7 [] [] = none :=
  C4_empty_selection_underflow.2 [] 5 7 (by decide)
